import Mathlib

set_option maxHeartbeats 1000000

attribute [local semireducible] Rat.add Rat.mul Rat.sub Rat.inv

/-!
Shallow embedding of the matching core of the DEEL transaction system
(`deel_app.py`): the name-similarity scorer, the name extractor, the
user matcher, and the transaction similarity search.  Python floats are
modelled by exact rationals, Python sets of strings/characters by
`Finset`, and Python's `round(x, 3)` by decimal round-half-to-even on
rationals.  Text processing is modelled on ASCII, matching the spec's
scope ("no internationalization-aware text normalization beyond ASCII
word/character extraction").  All definitions are structurally recursive
so that they evaluate inside the kernel.
-/

/-- Python whitespace characters, as used by `\s`, `str.strip` and `str.split`. -/
def isSp (c : Char) : Bool :=
  c == ' ' || c == '\t' || c == '\n' || c == '\r' || c == '\x0b' || c == '\x0c'

/-- ASCII lowercase letter, the character class `[a-z]`. -/
def isLoAlpha (c : Char) : Bool := decide ('a' ≤ c) && decide (c ≤ 'z')

/-- ASCII uppercase letter, the character class `[A-Z]`. -/
def isUpAlpha (c : Char) : Bool := decide ('A' ≤ c) && decide (c ≤ 'Z')

/-- ASCII digit. -/
def isDigitCh (c : Char) : Bool := decide ('0' ≤ c) && decide (c ≤ '9')

/-- Python's `\w` word-character class (ASCII scope): `[a-zA-Z0-9_]`. -/
def isWordChar (c : Char) : Bool := isLoAlpha c || isUpAlpha c || isDigitCh c || c == '_'

/-- Worker for `runsBy`: `cur` holds the reversed current run. -/
def runsByGo (p : Char → Bool) : List Char → List Char → List (List Char)
  | cur, [] => if cur = [] then [] else [cur.reverse]
  | cur, c :: cs =>
    if p c then runsByGo p (c :: cur) cs
    else if cur = [] then runsByGo p [] cs
    else cur.reverse :: runsByGo p [] cs

/-- Maximal runs of characters satisfying `p`; this is `re.findall` for a
character-class-plus pattern such as `[a-z]+` or `\b\w+\b`. -/
def runsBy (p : Char → Bool) (l : List Char) : List (List Char) := runsByGo p [] l

lemma runsByGo_acc (p : Char → Bool) :
    ∀ (cs acc : List Char), acc ≠ [] →
      runsByGo p acc cs =
        (acc.reverse ++ cs.takeWhile p) :: runsByGo p [] (cs.dropWhile p) := by
  intro cs
  induction cs with
  | nil =>
    intro acc hacc
    simp [runsByGo, hacc]
  | cons c cs ih =>
    intro acc hacc
    by_cases hc : p c = true
    · rw [runsByGo, if_pos hc, ih (c :: acc) (by simp)]
      simp [hc, List.append_assoc]
    · simp only [Bool.not_eq_true] at hc
      have hrhs : runsByGo p [] (c :: cs) = runsByGo p [] cs := by
        rw [runsByGo]
        simp [hc]
      rw [runsByGo]
      simp [hc, hacc, hrhs]

/-- Unfolding of `runsBy` in the take/drop form. -/
lemma runsBy_cons (p : Char → Bool) (c : Char) (cs : List Char) :
    runsBy p (c :: cs) =
      if p c then (c :: cs.takeWhile p) :: runsBy p (cs.dropWhile p)
      else runsBy p cs := by
  unfold runsBy
  by_cases hc : p c = true
  · rw [runsByGo, if_pos hc, runsByGo_acc p cs [c] (by simp)]
    simp [hc]
  · simp only [Bool.not_eq_true] at hc
    rw [runsByGo]
    simp [hc]

lemma runsBy_nil (p : Char → Bool) : runsBy p [] = [] := rfl

/-- ASCII lower-casing of a string, Python's `str.lower` on ASCII text. -/
def lowerStr (s : String) : String := String.mk (s.data.map Char.toLower)

/-- Strip leading and trailing whitespace from a character list. -/
def trimList (l : List Char) : List Char :=
  ((l.dropWhile isSp).reverse.dropWhile isSp).reverse

/-- Python's `str.strip()`. -/
def trimPy (s : String) : String := String.mk (trimList s.data)

/-- The normalisation `name.lower().strip()` applied by the scorer. -/
def normStr (s : String) : String := trimPy (lowerStr s)

/-- Python's `str.split()` (split on whitespace runs, no empty pieces). -/
def pySplit (s : String) : List String :=
  (runsBy (fun c => !(isSp c)) s.data).map String.mk

/-- Last whitespace-delimited token of a string, `s.split()[-1]`. -/
def lastWord (s : String) : String := (pySplit s).getLastD ""

/-- The set built by `set(re.findall(r'[a-z]+', s))`. -/
def wordSet (s : String) : Finset String :=
  ((runsBy isLoAlpha s.data).map String.mk).toFinset

/-- The set built by `set(s.replace(' ', ''))`: distinct characters of `s`
with spaces removed. -/
def charSet (s : String) : Finset Char :=
  (s.data.filter (fun c => !(c == ' '))).toFinset

/-- Python's binary `min`, written so that it evaluates inside the kernel. -/
def pyMin (a b : ℚ) : ℚ := if a ≤ b then a else b

/-- Jaccard quotient of two finite sets, with the source's guard
`len(common)/len(all) if all else 0.0`. -/
def jq {α : Type} [DecidableEq α] (A B : Finset α) : ℚ :=
  if A ∪ B = ∅ then 0 else ((A ∩ B).card : ℚ) / ((A ∪ B).card : ℚ)

/-- The first-character bonus step of the scorer:
`if n1 and n2 and n1[0] == n2[0]: score += 0.1`. -/
def bonusFirst (n1 n2 : String) (s : ℚ) : ℚ :=
  if n1 ≠ "" ∧ n2 ≠ "" ∧ n1.front = n2.front then s + 1/10 else s

/-- The shared-last-word bonus step of the scorer:
`if ' ' in n1 and ' ' in n2 and n1.split()[-1] == n2.split()[-1]: score += 0.2`. -/
def bonusLast (n1 n2 : String) (s : ℚ) : ℚ :=
  if ' ' ∈ n1.data ∧ ' ' ∈ n2.data ∧ lastWord n1 = lastWord n2 then s + 1/5 else s

/-- Embedding of `DeelTransactionSystem.calculate_name_similarity`. -/
def calculate_name_similarity (name1 name2 : String) : ℚ :=
  if name1 = "" ∨ name2 = "" then 0
  else if normStr name1 = normStr name2 then 1
  else if wordSet (normStr name1) = ∅ ∨ wordSet (normStr name2) = ∅ then 0
  else
    pyMin 1 (bonusLast (normStr name1) (normStr name2)
      (bonusFirst (normStr name1) (normStr name2)
        (jq (wordSet (normStr name1)) (wordSet (normStr name2)) * (7/10) +
         jq (charSet (normStr name1)) (charSet (normStr name2)) * (3/10))))

/-- Word Jaccard exactly as the spec words it: tokenize into a set of
lowercase alphabetic words and take `card (A ∩ B) / card (A ∪ B)`,
`0` if either set is empty. -/
def specWordJaccard (a b : String) : ℚ :=
  if wordSet (normStr a) = ∅ ∨ wordSet (normStr b) = ∅ then 0
  else ((wordSet (normStr a) ∩ wordSet (normStr b)).card : ℚ) /
       ((wordSet (normStr a) ∪ wordSet (normStr b)).card : ℚ)

/-- Character Jaccard exactly as the spec words it: character sets of the
space-stripped lowercase strings, `0` if either is empty. -/
def specCharJaccard (a b : String) : ℚ :=
  if charSet (normStr a) = ∅ ∨ charSet (normStr b) = ∅ then 0
  else ((charSet (normStr a) ∩ charSet (normStr b)).card : ℚ) /
       ((charSet (normStr a) ∪ charSet (normStr b)).card : ℚ)

/-- Spec bonus: +0.1 when the first characters of the two lower-cased,
trimmed strings are equal. -/
def specFirstBonus (a b : String) : ℚ :=
  if normStr a ≠ "" ∧ normStr b ≠ "" ∧ (normStr a).front = (normStr b).front
  then 1/10 else 0

/-- Spec bonus: +0.2 when both names contain an internal space and their
last whitespace-delimited tokens are equal. -/
def specLastBonus (a b : String) : ℚ :=
  if ' ' ∈ (normStr a).data ∧ ' ' ∈ (normStr b).data ∧
     lastWord (normStr a) = lastWord (normStr b)
  then 1/5 else 0

/-- The clamped weighted formula of the spec:
`min(1.0, 0.7*J_w + 0.3*J_c + bonuses)`. -/
def specFormulaScore (a b : String) : ℚ :=
  pyMin 1 (7/10 * specWordJaccard a b + 3/10 * specCharJaccard a b +
           specFirstBonus a b + specLastBonus a b)

lemma jq_comm {α : Type} [DecidableEq α] (A B : Finset α) : jq A B = jq B A := by
  simp [jq, Finset.union_comm, Finset.inter_comm]

lemma bonusFirst_comm (a b : String) (s : ℚ) : bonusFirst a b s = bonusFirst b a s := by
  unfold bonusFirst
  by_cases h : a ≠ "" ∧ b ≠ "" ∧ a.front = b.front
  · rw [if_pos h, if_pos ⟨h.2.1, h.1, h.2.2.symm⟩]
  · rw [if_neg h, if_neg (fun h2 => h ⟨h2.2.1, h2.1, h2.2.2.symm⟩)]

lemma bonusLast_comm (a b : String) (s : ℚ) : bonusLast a b s = bonusLast b a s := by
  unfold bonusLast
  by_cases h : ' ' ∈ a.data ∧ ' ' ∈ b.data ∧ lastWord a = lastWord b
  · rw [if_pos h, if_pos ⟨h.2.1, h.1, h.2.2.symm⟩]
  · rw [if_neg h, if_neg (fun h2 => h ⟨h2.2.1, h2.1, h2.2.2.symm⟩)]

/-- C5: the name-similarity scorer is fully symmetric: for every pair of
strings `a` and `b` (including empty, whitespace-only, and non-alphabetic
strings), `score(a,b) = score(b,a)`. -/
theorem name_similarity_symmetric (a b : String) :
    calculate_name_similarity a b = calculate_name_similarity b a := by
  unfold calculate_name_similarity
  split_ifs <;>
    first
      | rfl
      | tauto
      | rw [jq_comm (wordSet (normStr a)), jq_comm (charSet (normStr a)),
            bonusFirst_comm, bonusLast_comm]

lemma bonusFirst_eq (a b : String) (s : ℚ) :
    bonusFirst (normStr a) (normStr b) s = s + specFirstBonus a b := by
  unfold bonusFirst specFirstBonus
  by_cases h : normStr a ≠ "" ∧ normStr b ≠ "" ∧ (normStr a).front = (normStr b).front
  · rw [if_pos h, if_pos h]
  · rw [if_neg h, if_neg h, add_zero]

lemma bonusLast_eq (a b : String) (s : ℚ) :
    bonusLast (normStr a) (normStr b) s = s + specLastBonus a b := by
  unfold bonusLast specLastBonus
  by_cases h : ' ' ∈ (normStr a).data ∧ ' ' ∈ (normStr b).data ∧
      lastWord (normStr a) = lastWord (normStr b)
  · rw [if_pos h, if_pos h]
  · rw [if_neg h, if_neg h, add_zero]

lemma runsBy_mem_of_ne_nil {p : Char → Bool} {l : List Char}
    (h : runsBy p l ≠ []) : ∃ c ∈ l, p c = true := by
  induction l with
  | nil => simp [runsBy, runsByGo] at h
  | cons d ds ih =>
    rw [runsBy_cons] at h
    by_cases hd : p d = true
    · exact ⟨d, List.mem_cons_self d ds, hd⟩
    · simp only [hd, Bool.false_eq_true, if_false] at h
      obtain ⟨c, hc, hpc⟩ := ih h
      exact ⟨c, List.mem_cons_of_mem d hc, hpc⟩

/-- A string with a nonempty alphabetic word set has a nonempty character set. -/
lemma charSet_ne_empty_of_wordSet {s : String} (h : wordSet s ≠ ∅) :
    charSet s ≠ ∅ := by
  have hr : runsBy isLoAlpha s.data ≠ [] := by
    intro hnil
    apply h
    simp [wordSet, hnil]
  obtain ⟨c, hc, hpc⟩ := runsBy_mem_of_ne_nil hr
  have hcs : c ∈ charSet s := by
    simp only [charSet, List.mem_toFinset, List.mem_filter]
    refine ⟨hc, ?_⟩
    have : c ≠ ' ' := by
      intro rfl_eq
      subst rfl_eq
      simp [isLoAlpha, decide_eq_true_eq] at hpc
    simp [this]
  intro hempty
  rw [hempty] at hcs
  exact absurd hcs (Finset.not_mem_empty c)

lemma wordSet_nonempty_ne (A B : Finset String) (hA : A ≠ ∅) :
    A ∪ B ≠ ∅ := by
  intro h
  exact hA (Finset.union_eq_empty.mp h).1

/-- C1 (amended): for non-empty names that are not identical after
lower-casing and trimming and whose lowercase alphabetic token sets are
both non-empty, the score equals the spec's clamped weighted formula
`min(1.0, 0.7*J_w + 0.3*J_c + bonuses)`; in particular a zero word-Jaccard
term (disjoint non-empty token sets) still lets the character term and the
bonuses contribute.  (When either token set is empty the code instead
returns 0.0 at once.) -/
theorem name_similarity_formula (a b : String)
    (ha : a ≠ "") (hb : b ≠ "") (hne : normStr a ≠ normStr b)
    (hwa : wordSet (normStr a) ≠ ∅) (hwb : wordSet (normStr b) ≠ ∅) :
    calculate_name_similarity a b = specFormulaScore a b := by
  unfold calculate_name_similarity specFormulaScore
  rw [if_neg (by simp [ha, hb]), if_neg hne, if_neg (by simp [hwa, hwb])]
  rw [bonusLast_eq, bonusFirst_eq]
  have hca := charSet_ne_empty_of_wordSet hwa
  have hcb := charSet_ne_empty_of_wordSet hwb
  have hw : jq (wordSet (normStr a)) (wordSet (normStr b)) = specWordJaccard a b := by
    unfold jq specWordJaccard
    rw [if_neg (wordSet_nonempty_ne _ _ hwa), if_neg (by simp [hwa, hwb])]
  have hc : jq (charSet (normStr a)) (charSet (normStr b)) = specCharJaccard a b := by
    unfold jq specCharJaccard
    have hu : charSet (normStr a) ∪ charSet (normStr b) ≠ ∅ := by
      intro h
      exact hca (Finset.union_eq_empty.mp h).1
    rw [if_neg hu, if_neg (by simp [hca, hcb])]
  rw [hw, hc]
  congr 1
  ring

/-- Counterexample to C1 as stated: "12" and "123" are non-empty and not
identical after lower-casing and trimming, the word-Jaccard term is 0
(empty token sets), and the spec formula gives 0.3 via the character term
and the first-character bonus — but the code returns 0.0. -/
theorem name_similarity_formula_cex :
    ("12" : String) ≠ "" ∧ ("123" : String) ≠ "" ∧
    normStr "12" ≠ normStr "123" ∧
    calculate_name_similarity "12" "123" = 0 ∧
    specFormulaScore "12" "123" = 3/10 := by
  refine ⟨by decide, by decide, by decide, by decide, by decide⟩

/-- Witness for C1's amended theorem at the concrete pair
("John Smith", "Jon Smth"). -/
theorem name_similarity_formula_witness :
    (("John Smith" : String) ≠ "" ∧ ("Jon Smth" : String) ≠ "" ∧
     normStr "John Smith" ≠ normStr "Jon Smth" ∧
     wordSet (normStr "John Smith") ≠ ∅ ∧ wordSet (normStr "Jon Smth") ≠ ∅) ∧
    calculate_name_similarity "John Smith" "Jon Smth" =
      specFormulaScore "John Smith" "Jon Smth" :=
  ⟨⟨by decide, by decide, by decide, by decide, by decide⟩,
   name_similarity_formula "John Smith" "Jon Smth"
     (by decide) (by decide) (by decide) (by decide) (by decide)⟩

/-!
## Name extraction (`extract_name_from_text`)

The twelve lead-in patterns of the source all have the shape
`literal , \s+ , ([^,]+?) , … , for\s+Deel` with an occasional `.*`.
They are embedded as token lists interpreted by a small backtracking
matcher that reproduces `re.search` semantics on them: leftmost start
position, greedy `\s+`/`.*` (longest first), lazy `[^,]+?` (shortest
first), case-insensitive literals.
-/

/-- Tokens of the lead-in regular expressions. -/
inductive RTok where
  | lits : List Char → RTok
  | wsp : RTok
  | dotstar : RTok
  | grp : RTok

/-- Case-insensitive literal match: strips the (lower-case) pattern
characters off the front of the text. -/
def ciStrip : List Char → List Char → Option (List Char)
  | [], cs => some cs
  | _ :: _, [] => none
  | p :: ps, c :: cs => if p == c.toLower then ciStrip ps cs else none

/-- Length of the longest prefix satisfying `p`. -/
def countWhile (p : Char → Bool) (cs : List Char) : Nat := (cs.takeWhile p).length

/-- Backtracking matcher for a token list at a fixed start position.
Returns the text captured by the single `grp` token on success. -/
def tm : List RTok → List Char → Option (List Char) → Option (List Char)
  | [], _, cap => some (cap.getD [])
  | RTok.lits l :: ts, cs, cap =>
    match ciStrip l cs with
    | some rest => tm ts rest cap
    | none => none
  | RTok.wsp :: ts, cs, cap =>
    let n := countWhile isSp cs
    if n = 0 then none
    else (List.range n).findSome? (fun j => tm ts (cs.drop (n - j)) cap)
  | RTok.dotstar :: ts, cs, cap =>
    let n := countWhile (fun c => !(c == '\n')) cs
    (List.range (n + 1)).findSome? (fun j => tm ts (cs.drop (n - j)) cap)
  | RTok.grp :: ts, cs, _cap =>
    let m := countWhile (fun c => !(c == ',')) cs
    (List.range m).findSome? (fun j => tm ts (cs.drop (j + 1)) (some (cs.take (j + 1))))

/-- `re.search`: try every start position from the left. -/
def reSearch (p : List RTok) (cs : List Char) : Option (List Char) :=
  (List.range (cs.length + 1)).findSome? (fun i => tm p (cs.drop i) none)

/-- A case-insensitive literal token (the argument is written lower-case). -/
def lit (s : String) : RTok := RTok.lits s.data

/-- The twelve lead-in patterns, in the source's priority order (patterns
one and two coincide under `re.IGNORECASE`). -/
def deelPatterns : List (List RTok) :=
  [ [lit "from", RTok.wsp, RTok.grp, RTok.wsp, lit "for", RTok.wsp, lit "deel"],
    [lit "from", RTok.wsp, RTok.grp, RTok.wsp, lit "for", RTok.wsp, lit "deel"],
    [lit "transfer from", RTok.wsp, RTok.grp, RTok.wsp, lit "for", RTok.wsp, lit "deel"],
    [lit "payment from", RTok.wsp, RTok.grp, RTok.wsp, lit "for", RTok.wsp, lit "deel"],
    [lit "received from", RTok.wsp, RTok.grp, RTok.wsp, lit "for", RTok.wsp, lit "deel"],
    [lit "request from", RTok.wsp, RTok.grp, RTok.wsp, lit "for", RTok.wsp, lit "deel"],
    [lit "to deel", RTok.dotstar, lit "from", RTok.wsp, RTok.grp, RTok.wsp,
      lit "for", RTok.wsp, lit "deel"],
    [lit "deel payment from", RTok.wsp, RTok.grp, RTok.wsp, lit "for", RTok.wsp, lit "deel"],
    [lit "from", RTok.wsp, RTok.grp, RTok.wsp, lit ",", RTok.wsp,
      lit "for", RTok.wsp, lit "deel"],
    [lit "from", RTok.wsp, RTok.grp, RTok.wsp, lit ",", RTok.wsp, lit "ref",
      RTok.dotstar, lit "for", RTok.wsp, lit "deel"],
    [lit "from", RTok.wsp, RTok.grp, RTok.wsp, lit "ref", RTok.dotstar,
      lit "for", RTok.wsp, lit "deel"],
    [lit "ref", RTok.dotstar, lit "from", RTok.wsp, RTok.grp, RTok.wsp,
      lit "for", RTok.wsp, lit "deel"] ]

/-- The pattern loop: capture of the first pattern that matches. -/
def leadinExtract (cs : List Char) : Option (List Char) :=
  deelPatterns.findSome? (fun p => reSearch p cs)

/-- Worker for whitespace collapapsing: the flag records whether the
previous character was whitespace. -/
def collapseGo : Bool → List Char → List Char
  | _, [] => []
  | inWs, c :: cs =>
    if isSp c then (if inWs then collapseGo true cs else ' ' :: collapseGo true cs)
    else c :: collapseGo false cs

/-- `re.sub(r'\s+', ' ', l).strip()`. -/
def collapseWs (l : List Char) : List Char := trimList (collapseGo false l)

/-- `re.sub(r'\s+\d+$', '', l)`: drop a trailing whitespace-plus-digits run. -/
def stripTrailNum (l : List Char) : List Char :=
  let r := l.reverse
  let d := r.takeWhile isDigitCh
  if d = [] then l
  else
    let r2 := r.drop d.length
    let w := r2.takeWhile isSp
    if w = [] then l else (r2.drop w.length).reverse

/-- The honorific / noise suffixes stripped by the extractor. -/
def honorifics : List (List Char) :=
  ["jr".data, "sr".data, "ii".data, "iii".data, "iv".data,
   "test".data, "debit".data, "credit".data, "err#".data]

/-- `re.sub(r'\s+(jr|sr|ii|iii|iv|test|debit|credit|err#)$', '', l, re.I)`:
at most one alternative can match a whitespace-preceded suffix, so trying
them in order is faithful. -/
def stripHonor (l : List Char) : List Char :=
  let r := l.reverse
  match honorifics.findSome? (fun tok =>
    if (r.take tok.length).map Char.toLower = tok.reverse then
      let r2 := r.drop tok.length
      if r2.takeWhile isSp = [] then none
      else some ((r2.drop (r2.takeWhile isSp).length).reverse)
    else none) with
  | some res => res
  | none => l

/-- Post-processing of a captured group: strip, replace characters outside
`[\w\s.-]` by spaces, collapse whitespace, strip trailing digits and
honorifics, then reduce to `first_word + " " + last_word`. -/
def postproc (cap : List Char) : String :=
  let n1 := (trimList cap).map
    (fun c => if isWordChar c || isSp c || c == '.' || c == '-' then c else ' ')
  let n4 := stripHonor (stripTrailNum (collapseWs n1))
  match runsBy (fun c => !(isSp c)) n4 with
  | [] => String.mk n4
  | [w] => String.mk w
  | w :: rest => String.mk (w ++ ' ' :: rest.getLastD [])

/-- Python's `text.replace('  ', ' ')`: non-overlapping left-to-right. -/
def replPair : List Char → List Char
  | ' ' :: ' ' :: cs => ' ' :: replPair cs
  | c :: cs => c :: replPair cs
  | [] => []

/-- Python's `text.replace('   ', ' ')`. -/
def replTriple : List Char → List Char
  | ' ' :: ' ' :: ' ' :: cs => ' ' :: replTriple cs
  | c :: cs => c :: replTriple cs
  | [] => []

/-- The preliminary cleanup
`text.replace('  ', ' ').replace('   ', ' ').strip()`. -/
def preText (s : String) : List Char := trimList (replTriple (replPair s.data))

/-- One capitalized word `[A-Z][a-z]+` at the head of the text, with the
greedy (maximal) lower-case part, plus the rest. -/
def capWord? : List Char → Option (List Char × List Char)
  | [] => none
  | c :: cs =>
    if isUpAlpha c then
      if cs.takeWhile isLoAlpha = [] then none
      else some (c :: cs.takeWhile isLoAlpha, cs.dropWhile isLoAlpha)
    else none

/-- `\s+[A-Z][a-z]+` at the head of the text: whitespace run, capitalized
word, rest. -/
def wsCap? (cs : List Char) : Option (List Char × List Char × List Char) :=
  if cs.takeWhile isSp = [] then none
  else
    match capWord? (cs.dropWhile isSp) with
    | none => none
    | some (cw, rest) => some (cs.takeWhile isSp, cw, rest)

/-- Fuelled worker for `runTail`. -/
def runTailF : Nat → List Char → List Char × List Char
  | 0, cs => ([], cs)
  | fuel + 1, cs =>
    match wsCap? cs with
    | none => ([], cs)
    | some (w, cw, rest) =>
      let pr := runTailF fuel rest
      (w ++ cw ++ pr.1, pr.2)

/-- The greedy `(?:\s+[A-Z][a-z]+)+`-tail of a capitalized run: consumed
characters and the rest of the text. -/
def runTail (cs : List Char) : List Char × List Char := runTailF cs.length cs

/-- Fuelled worker for `scan1`. -/
def scan1F : Nat → List Char → List (List Char)
  | 0, _ => []
  | _fuel + 1, [] => []
  | fuel + 1, c :: cs' =>
    match capWord? (c :: cs') with
    | none => scan1F fuel cs'
    | some (w, rest) =>
      let pr := runTail rest
      if pr.1 = [] then scan1F fuel cs'
      else (w ++ pr.1) :: scan1F fuel pr.2

/-- `re.findall(r'([A-Z][a-z]+(?:\s+[A-Z][a-z]+)+)', text)`: leftmost,
non-overlapping, maximal capitalized runs of at least two words. -/
def scan1 (cs : List Char) : List (List Char) := scan1F cs.length cs

/-- `[A-Z][a-z]+\s+[A-Z][a-z]+` at the head of the text. -/
def pairAt (cs : List Char) : Option (List Char × List Char) :=
  match capWord? cs with
  | none => none
  | some (w, rest) =>
    match wsCap? rest with
    | none => none
    | some (ws, cw, rest2) => some (w ++ ws ++ cw, rest2)

/-- Fuelled worker for `scan2`. -/
def scan2F : Nat → List Char → List (List Char)
  | 0, _ => []
  | _fuel + 1, [] => []
  | fuel + 1, c :: cs' =>
    match pairAt (c :: cs') with
    | none => scan2F fuel cs'
    | some (m, r) => m :: scan2F fuel r

/-- `re.findall(r'([A-Z][a-z]+\s+[A-Z][a-z]+)', text)`: leftmost,
non-overlapping pairs of capitalized words. -/
def scan2 (cs : List Char) : List (List Char) := scan2F cs.length cs

/-- The fallback filter `len(match.split()) >= 2 and len(match) > 5`. -/
def passCond (m : List Char) : Bool :=
  decide (2 ≤ (runsBy (fun c => !(isSp c)) m).length) && decide (5 < m.length)

/-- Embedding of `DeelTransactionSystem.extract_name_from_text`. -/
def extract_name_from_text (text : String) : String :=
  if text = "" then ""
  else
    match leadinExtract (preText text) with
    | some cap => postproc cap
    | none =>
      match (scan1 (preText text)).find? passCond with
      | some m => String.mk m
      | none =>
        match (scan2 (preText text)).find? passCond with
        | some m => String.mk m
        | none => ""

/-!
## Data model and Python `round`
-/

/-- A transaction record (the fields the core uses). -/
structure Transaction where
  id : String
  amount : ℚ
  description : String
deriving DecidableEq

/-- A user (directory) record. -/
structure User where
  id : String
  name : String
deriving DecidableEq

/-- A match entry as produced by `find_user_matches_for_transaction`. -/
structure MatchEntry where
  id : String
  name : String
  match_metric : ℚ
deriving DecidableEq

/-- Floor of a rational as an integer (kernel-evaluable). -/
def qFloor (x : ℚ) : ℤ := Int.fdiv x.num (Int.ofNat x.den)

/-- Round half to even on an exact rational, Python's `round(x)`. -/
def rhe (x : ℚ) : ℤ :=
  let f := qFloor x
  let r := x - mkRat f 1
  if r < 1/2 then f
  else if 1/2 < r then f + 1
  else if f % 2 = 0 then f else f + 1

/-- Python's `round(x, 3)` modelled on exact rationals. -/
def round3 (x : ℚ) : ℚ := mkRat (rhe (x * 1000)) 1000

/-!
## Stable descending sort (Python `list.sort(key=…, reverse=True)`)
-/

/-- Stable descending insertion: the new element goes in front of the
first element whose key is not larger (so, being the original-earlier
element under `foldr`, it precedes equal keys). -/
def insDesc {α : Type} (key : α → ℚ) (x : α) : List α → List α
  | [] => [x]
  | y :: ys => if key y ≤ key x then x :: y :: ys else y :: insDesc key x ys

/-- Stable descending insertion sort, the model of Python's stable
`sort(key=…, reverse=True)`. -/
def isortDesc {α : Type} (key : α → ℚ) (l : List α) : List α :=
  l.foldr (insDesc key) []

/-!
## User matcher (`find_user_matches_for_transaction`)
-/

/-- Resolution of the input as a transaction identifier
(case-insensitive, stripped); on failure the input is the description. -/
def resolveDescription (transactions : List Transaction) (input : String) : String :=
  match transactions.find? (fun t => trimPy (lowerStr t.id) == trimPy (lowerStr input)) with
  | some t => t.description
  | none => input

/-- The name the matcher extracts for a given input. -/
def extractedFor (transactions : List Transaction) (input : String) : String :=
  extract_name_from_text (resolveDescription transactions input)

/-- The user loop: skip empty names, keep raw similarity at least 0.3,
record the similarity rounded to three decimals. -/
def buildMatches (ex : String) : List User → List MatchEntry
  | [] => []
  | u :: us =>
    if u.name = "" then buildMatches ex us
    else if 3/10 ≤ calculate_name_similarity ex u.name then
      ⟨u.id, u.name, round3 (calculate_name_similarity ex u.name)⟩ :: buildMatches ex us
    else buildMatches ex us

/-- Embedding of `DeelTransactionSystem.find_user_matches_for_transaction`
(modelling its first return value, the match list; the extracted name is
`extractedFor`, and the resolved transaction is not needed by any claim). -/
def find_user_matches_for_transaction (transactions : List Transaction)
    (users : List User) (input : String) : List MatchEntry :=
  if extractedFor transactions input = "" then []
  else isortDesc MatchEntry.match_metric
    (buildMatches (extractedFor transactions input) users)

/-!
## Transaction similarity search (`find_similar_transactions`)

The source iterates `list(query_words)` where `query_words` is a Python
`set`; the enumeration order of that set is implementation-defined, so the
embedding takes the enumeration as a function parameter `σ` applied to the
first-occurrence (dedup) list of the distinct query tokens.  The mutable
`common_words` variable, which the source leaves stale (or unbound) when a
description has no word tokens, is threaded as an `Option (Finset String)`
accumulator; reading it while unbound is Python's `NameError`, modelled as
the overall result `none`. -/

/-- `re.findall(r'\b\w+\b', s.lower())`. -/
def wtokens (s : String) : List String :=
  (runsBy isWordChar (lowerStr s).data).map String.mk

/-- The per-transaction similarity (stateless part of the loop body). -/
def simOf (Q : Finset String) (d : String) : ℚ :=
  if Q ≠ ∅ ∧ (wtokens d).toFinset ≠ ∅ then jq Q (wtokens d).toFinset else 0

/-- The common-token set of the query and one description. -/
def commonOf (Q : Finset String) (d : String) : Finset String :=
  Q ∩ (wtokens d).toFinset

/-- The 10-slot indicator vector over the first ten enumerated query
words, padded with zeros. -/
def indicatorOf (σQ : List String) (c : Finset String) : List ℕ :=
  (((σQ.take 10).map (fun w => if w ∈ c then (1 : ℕ) else 0)) ++
    List.replicate (10 - (σQ.take 10).length) 0).take 10

/-- A result record still carrying its internal `_similarity` key. -/
structure RawResult where
  id : String
  description : String
  amount : ℚ
  embedding : List ℕ
  sim : ℚ
deriving DecidableEq

/-- A returned similarity result (the `_similarity` key deleted). -/
structure SimResult where
  id : String
  description : String
  amount : ℚ
  embedding : List ℕ
deriving DecidableEq

/-- The transaction loop of `find_similar_transactions`. -/
def simLoop (Q : Finset String) (σQ : List String) (th : ℚ) :
    List Transaction → Option (Finset String) → List RawResult →
    Option (List RawResult)
  | [], _, acc => some acc
  | t :: ts, common?, acc =>
    let common2 := if Q ≠ ∅ ∧ (wtokens t.description).toFinset ≠ ∅
      then some (Q ∩ (wtokens t.description).toFinset) else common?
    if th ≤ simOf Q t.description then
      match common2 with
      | none => none
      | some c =>
        simLoop Q σQ th ts common2
          (acc ++ [⟨t.id, t.description, t.amount, indicatorOf σQ c,
                    simOf Q t.description⟩])
    else simLoop Q σQ th ts common2 acc

/-- Dropping the internal similarity key. -/
def stripRaw (r : RawResult) : SimResult := ⟨r.id, r.description, r.amount, r.embedding⟩

/-- Embedding of `DeelTransactionSystem.find_similar_transactions`,
parameterised by the set-enumeration `σ`. -/
def find_similar_transactions (σ : List String → List String)
    (transactions : List Transaction) (query_text : String) (threshold : ℚ)
    (top_k : ℕ) : Option (List SimResult × ℕ) :=
  if query_text = "" then some ([], 0)
  else if (wtokens query_text).length = 0 then some ([], 0)
  else
    match simLoop (wtokens query_text).toFinset (σ (wtokens query_text).dedup)
        threshold transactions none [] with
    | none => none
    | some res =>
      some (((isortDesc RawResult.sim res).take top_k).map stripRaw,
            (wtokens query_text).length)

/-!
## Stable-sort theory
-/

lemma insDesc_split {α : Type} (key : α → ℚ) (x : α) :
    ∀ l : List α, ∃ p s, l = p ++ s ∧ insDesc key x l = p ++ x :: s := by
  intro l
  induction l with
  | nil => exact ⟨[], [], rfl, rfl⟩
  | cons y ys ih =>
    by_cases h : key y ≤ key x
    · exact ⟨[], y :: ys, rfl, by simp [insDesc, h]⟩
    · obtain ⟨p, s, hl, hi⟩ := ih
      refine ⟨y :: p, s, by simp [hl], ?_⟩
      simp [insDesc, h, hi]

lemma insDesc_perm {α : Type} (key : α → ℚ) (x : α) (l : List α) :
    (insDesc key x l).Perm (x :: l) := by
  obtain ⟨p, s, hl, hi⟩ := insDesc_split key x l
  rw [hi, hl]
  exact List.perm_middle

lemma isortDesc_perm {α : Type} (key : α → ℚ) (l : List α) :
    (isortDesc key l).Perm l := by
  induction l with
  | nil => simp [isortDesc]
  | cons a l ih =>
    exact (insDesc_perm key a (isortDesc key l)).trans (ih.cons a)

lemma insDesc_pairwise {α : Type} (key : α → ℚ) (x : α) (l : List α)
    (h : l.Pairwise (fun a b => key b ≤ key a)) :
    (insDesc key x l).Pairwise (fun a b => key b ≤ key a) := by
  induction l with
  | nil => simp [insDesc]
  | cons y ys ih =>
    rcases List.pairwise_cons.mp h with ⟨hy, hys⟩
    by_cases hxy : key y ≤ key x
    · simp only [insDesc, if_pos hxy]
      refine List.pairwise_cons.mpr ⟨?_, h⟩
      intro z hz
      rcases List.mem_cons.mp hz with rfl | hz2
      · exact hxy
      · exact le_trans (hy z hz2) hxy
    · simp only [insDesc, if_neg hxy]
      refine List.pairwise_cons.mpr ⟨?_, ih hys⟩
      intro z hz
      rcases List.mem_cons.mp ((insDesc_perm key x ys).mem_iff.mp hz) with rfl | hz2
      · exact le_of_lt (lt_of_not_le hxy)
      · exact hy z hz2

lemma isortDesc_pairwise {α : Type} (key : α → ℚ) (l : List α) :
    (isortDesc key l).Pairwise (fun a b => key b ≤ key a) := by
  induction l with
  | nil => simp [isortDesc]
  | cons a l ih => exact insDesc_pairwise key a (isortDesc key l) ih

lemma insDesc_filter {α : Type} (key : α → ℚ) (m : ℚ) (x : α) (l : List α) :
    (insDesc key x l).filter (fun a => decide (key a = m)) =
      if key x = m then x :: l.filter (fun a => decide (key a = m))
      else l.filter (fun a => decide (key a = m)) := by
  induction l with
  | nil => by_cases hx : key x = m <;> simp [insDesc, hx]
  | cons y ys ih =>
    by_cases hxy : key y ≤ key x
    · simp only [insDesc, if_pos hxy]
      by_cases hx : key x = m <;> simp [List.filter_cons, hx]
    · simp only [insDesc, if_neg hxy]
      by_cases hy : key y = m
      · have hx : ¬ key x = m := by
          intro hx
          exact hxy (le_of_eq (hy.trans hx.symm))
        simp [List.filter_cons, hy, hx, ih]
      · by_cases hx : key x = m <;> simp [List.filter_cons, hy, hx, ih]

lemma isortDesc_filter {α : Type} (key : α → ℚ) (m : ℚ) (l : List α) :
    (isortDesc key l).filter (fun a => decide (key a = m)) =
      l.filter (fun a => decide (key a = m)) := by
  induction l with
  | nil => simp [isortDesc]
  | cons a l ih =>
    have : isortDesc key (a :: l) = insDesc key a (isortDesc key l) := rfl
    rw [this, insDesc_filter]
    by_cases ha : key a = m <;> simp [List.filter_cons, ha, ih]

/-!
## Characterisation of the user matcher
-/

/-- The filter the spec describes: non-empty name and raw similarity at
least 0.3. -/
def keepUser (ex : String) (u : User) : Bool :=
  !(u.name == "") && decide (3/10 ≤ calculate_name_similarity ex u.name)

/-- The entry built for a kept user: the reported score is the raw
similarity rounded to three decimals. -/
def toEntry (ex : String) (u : User) : MatchEntry :=
  ⟨u.id, u.name, round3 (calculate_name_similarity ex u.name)⟩

lemma buildMatches_eq (ex : String) :
    ∀ us, buildMatches ex us = (us.filter (keepUser ex)).map (toEntry ex) := by
  intro us
  induction us with
  | nil => rfl
  | cons u us ih =>
    by_cases h1 : u.name = ""
    · simp [buildMatches, h1, keepUser, List.filter_cons, ih]
    · by_cases h2 : 3/10 ≤ calculate_name_similarity ex u.name
      · simp [buildMatches, h1, h2, keepUser, toEntry, List.filter_cons, ih]
      · simp [buildMatches, h1, h2, keepUser, List.filter_cons, ih]

lemma calc_empty_left (y : String) : calculate_name_similarity "" y = 0 := by
  simp [calculate_name_similarity]

lemma keepUser_empty (u : User) : keepUser "" u = false := by
  unfold keepUser
  rw [calc_empty_left]
  have h : ¬ (3/10 : ℚ) ≤ 0 := by norm_num
  simp [h]

lemma user_matches_perm (ts : List Transaction) (us : List User) (inp : String) :
    (find_user_matches_for_transaction ts us inp).Perm
      ((us.filter (keepUser (extractedFor ts inp))).map (toEntry (extractedFor ts inp))) := by
  unfold find_user_matches_for_transaction
  by_cases hex : extractedFor ts inp = ""
  · rw [if_pos hex, hex]
    have hnil : us.filter (keepUser "") = [] := by
      induction us with
      | nil => rfl
      | cons u us ih => simp [List.filter_cons, keepUser_empty, ih]
    simp [hnil]
  · rw [if_neg hex, buildMatches_eq]
    exact isortDesc_perm _ _

lemma user_matches_sorted (ts : List Transaction) (us : List User) (inp : String) :
    (find_user_matches_for_transaction ts us inp).Pairwise
      (fun a b => b.match_metric ≤ a.match_metric) := by
  unfold find_user_matches_for_transaction
  by_cases hex : extractedFor ts inp = ""
  · simp [hex]
  · rw [if_neg hex]
    exact isortDesc_pairwise MatchEntry.match_metric _

lemma user_matches_stable (ts : List Transaction) (us : List User) (inp : String)
    (m : ℚ) :
    (find_user_matches_for_transaction ts us inp).filter
        (fun e => decide (e.match_metric = m)) =
      ((us.filter (keepUser (extractedFor ts inp))).map
          (toEntry (extractedFor ts inp))).filter
        (fun e => decide (e.match_metric = m)) := by
  unfold find_user_matches_for_transaction
  by_cases hex : extractedFor ts inp = ""
  · rw [if_pos hex, hex]
    have hnil : us.filter (keepUser "") = [] := by
      induction us with
      | nil => rfl
      | cons u us ih => simp [List.filter_cons, keepUser_empty, ih]
    simp [hnil]
  · rw [if_neg hex, buildMatches_eq]
    exact isortDesc_filter MatchEntry.match_metric m _

/-- C2: for every input string, transactions collection and users
collection, the match list contains exactly the users with a non-empty
name whose similarity against the extracted name is at least 0.3 (as a
permutation of that filtered, score-annotated list), is sorted by the
reported score descending, and is stable: within every score bucket the
entries appear in the users' original directory order. -/
theorem user_matches_exact_sorted_stable (ts : List Transaction) (us : List User)
    (inp : String) :
    (find_user_matches_for_transaction ts us inp).Perm
        ((us.filter (keepUser (extractedFor ts inp))).map
          (toEntry (extractedFor ts inp)))
    ∧ (find_user_matches_for_transaction ts us inp).Pairwise
        (fun a b => b.match_metric ≤ a.match_metric)
    ∧ ∀ m : ℚ, (find_user_matches_for_transaction ts us inp).filter
          (fun e => decide (e.match_metric = m)) =
        ((us.filter (keepUser (extractedFor ts inp))).map
            (toEntry (extractedFor ts inp))).filter
          (fun e => decide (e.match_metric = m)) :=
  ⟨user_matches_perm ts us inp, user_matches_sorted ts us inp,
   fun m => user_matches_stable ts us inp m⟩

/-- Two directory entries whose raw scores against "ab" differ by
`1/2100` but round to the same three decimals. -/
def demoU1 : User := ⟨"u1", "ab cdefghijklmnopqrstuvwxyz012345678"⟩

/-- The companion entry of `demoU1`, one extra distinct character. -/
def demoU2 : User := ⟨"u2", "ab cdefghijklmnopqrstuvwxyz0123456789"⟩

/-- C10: every reported score is the raw similarity rounded to three
decimals while the 0.3 admission threshold is applied to the unrounded
similarity (the permutation characterisation spells out both), and on a
concrete directory two users with different raw scores in the same
rounding bucket are reported with equal scores in original directory
order — the lower raw score first, which a raw-score sort would not do. -/
theorem match_metric_rounded_raw_threshold :
    (∀ (ts : List Transaction) (us : List User) (inp : String),
      (find_user_matches_for_transaction ts us inp).Perm
        ((us.filter (keepUser (extractedFor ts inp))).map
          (toEntry (extractedFor ts inp))))
    ∧ find_user_matches_for_transaction [] [demoU2, demoU1] "From ab for Deel" =
        [⟨"u2", demoU2.name, 467/1000⟩, ⟨"u1", demoU1.name, 467/1000⟩]
    ∧ calculate_name_similarity "ab" demoU2.name <
        calculate_name_similarity "ab" demoU1.name
    ∧ round3 (calculate_name_similarity "ab" demoU2.name) =
        round3 (calculate_name_similarity "ab" demoU1.name) := by
  refine ⟨fun ts us inp => user_matches_perm ts us inp, by decide, by decide, by decide⟩

/-!
## Properties of the transaction similarity search
-/

lemma indicatorOf_length (σQ : List String) (c : Finset String) :
    (indicatorOf σQ c).length = 10 := by
  unfold indicatorOf
  rw [List.length_take, List.length_append, List.length_map, List.length_replicate]
  have h : (σQ.take 10).length ≤ 10 := by
    rw [List.length_take]
    exact min_le_left _ _
  omega

lemma indicatorOf_mem (σQ : List String) (c : Finset String) :
    ∀ x ∈ indicatorOf σQ c, x = 0 ∨ x = 1 := by
  intro x hx
  unfold indicatorOf at hx
  have hx2 := List.take_subset 10 _ hx
  rcases List.mem_append.mp hx2 with h | h
  · rcases List.mem_map.mp h with ⟨w, _, hw⟩
    by_cases hc : w ∈ c
    · right
      rw [← hw]
      simp [hc]
    · left
      rw [← hw]
      simp [hc]
  · left
    exact List.eq_of_mem_replicate h

lemma simLoop_cons (Q : Finset String) (σQ : List String) (th : ℚ)
    (t : Transaction) (ts : List Transaction) (c? : Option (Finset String))
    (acc : List RawResult) :
    simLoop Q σQ th (t :: ts) c? acc =
      (if th ≤ simOf Q t.description then
        match (if Q ≠ ∅ ∧ (wtokens t.description).toFinset ≠ ∅
               then some (Q ∩ (wtokens t.description).toFinset) else c?) with
        | none => none
        | some c =>
          simLoop Q σQ th ts
            (if Q ≠ ∅ ∧ (wtokens t.description).toFinset ≠ ∅
             then some (Q ∩ (wtokens t.description).toFinset) else c?)
            (acc ++ [⟨t.id, t.description, t.amount, indicatorOf σQ c,
                      simOf Q t.description⟩])
      else simLoop Q σQ th ts
        (if Q ≠ ∅ ∧ (wtokens t.description).toFinset ≠ ∅
         then some (Q ∩ (wtokens t.description).toFinset) else c?) acc) := rfl

lemma simLoop_mem (Q : Finset String) (σQ : List String) (th : ℚ) :
    ∀ (ts : List Transaction) (c? : Option (Finset String))
      (acc res : List RawResult),
      simLoop Q σQ th ts c? acc = some res →
      ∀ r ∈ res, r ∈ acc ∨ ∃ c, r.embedding = indicatorOf σQ c := by
  intro ts
  induction ts with
  | nil =>
    intro c? acc res h r hr
    simp only [simLoop, Option.some.injEq] at h
    subst h
    exact Or.inl hr
  | cons t ts ih =>
    intro c? acc res h r hr
    rw [simLoop_cons] at h
    by_cases hth : th ≤ simOf Q t.description
    · rw [if_pos hth] at h
      by_cases hQ : Q ≠ ∅ ∧ (wtokens t.description).toFinset ≠ ∅
      · rw [if_pos hQ] at h
        rcases ih _ _ _ h r hr with hacc | hind
        · rcases List.mem_append.mp hacc with h1 | h1
          · exact Or.inl h1
          · rw [List.mem_singleton] at h1
            subst h1
            exact Or.inr ⟨_, rfl⟩
        · exact Or.inr hind
      · rw [if_neg hQ] at h
        cases hc : c? with
        | none =>
          rw [hc] at h
          exact absurd h (by simp)
        | some c =>
          rw [hc] at h
          rcases ih _ _ _ h r hr with hacc | hind
          · rcases List.mem_append.mp hacc with h1 | h1
            · exact Or.inl h1
            · rw [List.mem_singleton] at h1
              subst h1
              exact Or.inr ⟨_, rfl⟩
          · exact Or.inr hind
    · rw [if_neg hth] at h
      exact ih _ _ _ h r hr

lemma simLoop_length (Q : Finset String) (σQ : List String) (th : ℚ) :
    ∀ (ts : List Transaction) (c? : Option (Finset String))
      (acc res : List RawResult),
      simLoop Q σQ th ts c? acc = some res →
      res.length = acc.length +
        (ts.filter (fun t => decide (th ≤ simOf Q t.description))).length := by
  intro ts
  induction ts with
  | nil =>
    intro c? acc res h
    simp only [simLoop, Option.some.injEq] at h
    subst h
    simp
  | cons t ts ih =>
    intro c? acc res h
    rw [simLoop_cons] at h
    by_cases hth : th ≤ simOf Q t.description
    · rw [if_pos hth] at h
      by_cases hQ : Q ≠ ∅ ∧ (wtokens t.description).toFinset ≠ ∅
      · rw [if_pos hQ] at h
        have hlen := ih _ _ _ h
        rw [List.length_append] at hlen
        have hcond : decide (th ≤ simOf Q t.description) = true := by simp [hth]
        simp only [List.filter_cons, hcond, if_true, List.length_cons]
        simp only [List.length_singleton] at hlen
        omega
      · rw [if_neg hQ] at h
        cases hc : c? with
        | none =>
          rw [hc] at h
          exact absurd h (by simp)
        | some c =>
          rw [hc] at h
          have hlen := ih _ _ _ h
          rw [List.length_append] at hlen
          have hcond : decide (th ≤ simOf Q t.description) = true := by simp [hth]
          simp only [List.filter_cons, hcond, if_true, List.length_cons]
          simp only [List.length_singleton] at hlen
          omega
    · rw [if_neg hth] at h
      have hlen := ih _ _ _ h
      have hcond : decide (th ≤ simOf Q t.description) = false := by simp [hth]
      simp only [List.filter_cons, hcond, Bool.false_eq_true, if_false]
      omega

/-- The result embedding is computed from the common-token set of the
result's own description. -/
def GoodEmb (Q : Finset String) (σQ : List String) (r : RawResult) : Prop :=
  r.embedding = indicatorOf σQ (commonOf Q r.description)

lemma simOf_ne_zero (Q : Finset String) (d : String) (h : simOf Q d ≠ 0) :
    Q ≠ ∅ ∧ (wtokens d).toFinset ≠ ∅ := by
  by_contra hc
  unfold simOf at h
  rw [if_neg hc] at h
  exact h rfl

lemma simLoop_total_good (Q : Finset String) (σQ : List String) (th : ℚ)
    (hth : 0 < th) :
    ∀ (ts : List Transaction) (c? : Option (Finset String))
      (acc : List RawResult), (∀ r ∈ acc, GoodEmb Q σQ r) →
      ∃ res, simLoop Q σQ th ts c? acc = some res ∧ ∀ r ∈ res, GoodEmb Q σQ r := by
  intro ts
  induction ts with
  | nil =>
    intro c? acc hacc
    exact ⟨acc, rfl, hacc⟩
  | cons t ts ih =>
    intro c? acc hacc
    by_cases hth2 : th ≤ simOf Q t.description
    · have hne : simOf Q t.description ≠ 0 := by
        intro h0
        rw [h0] at hth2
        exact absurd (lt_of_lt_of_le hth hth2) (lt_irrefl 0)
      have hQ := simOf_ne_zero Q t.description hne
      obtain ⟨res, hres, hgood⟩ := ih
        (some (Q ∩ (wtokens t.description).toFinset))
        (acc ++ [⟨t.id, t.description, t.amount,
                  indicatorOf σQ (Q ∩ (wtokens t.description).toFinset),
                  simOf Q t.description⟩])
        (by
          intro r hr
          rcases List.mem_append.mp hr with h1 | h1
          · exact hacc r h1
          · rw [List.mem_singleton] at h1
            subst h1
            rfl)
      refine ⟨res, ?_, hgood⟩
      rw [simLoop_cons, if_pos hth2, if_pos hQ]
      exact hres
    · obtain ⟨res, hres, hgood⟩ := ih
        (if Q ≠ ∅ ∧ (wtokens t.description).toFinset ≠ ∅
         then some (Q ∩ (wtokens t.description).toFinset) else c?) acc hacc
      refine ⟨res, ?_, hgood⟩
      rw [simLoop_cons, if_neg hth2]
      exact hres

/-- C9: with a non-empty query tokenization and a strictly positive
threshold the search is total (no `NameError`) and every returned
indicator vector is computed from that same transaction's
query–description common-token set; and with threshold 0 a transaction
whose description has no word tokens is kept while `common_words` is
still unbound, so the loop fails (the source raises `NameError`). -/
theorem find_similar_total_own_indicator :
    (∀ (σ : List String → List String) (q : String) (ts : List Transaction)
        (th : ℚ) (k : ℕ), wtokens q ≠ [] → 0 < th →
      ∃ out, find_similar_transactions σ ts q th k = some out ∧
        ∀ r ∈ out.1, r.embedding =
          indicatorOf (σ (wtokens q).dedup)
            (commonOf (wtokens q).toFinset r.description))
    ∧ find_similar_transactions id [⟨"t1", 1, "!!!"⟩] "alpha" 0 5 = none := by
  constructor
  · intro σ q ts th k hq hth
    have hq0 : q ≠ "" := by
      intro h
      subst h
      exact hq rfl
    have hlen : ¬ (wtokens q).length = 0 := by
      intro h
      exact hq (List.length_eq_zero.mp h)
    obtain ⟨res, hres, hgood⟩ := simLoop_total_good (wtokens q).toFinset
      (σ (wtokens q).dedup) th hth ts none [] (by intro r hr; cases hr)
    refine ⟨(((isortDesc RawResult.sim res).take k).map stripRaw,
             (wtokens q).length), ?_, ?_⟩
    · unfold find_similar_transactions
      rw [if_neg hq0, if_neg hlen, hres]
    · intro r hr
      rcases List.mem_map.mp hr with ⟨rr, hrr, hstrip⟩
      have hrr2 : rr ∈ res := (isortDesc_perm RawResult.sim res).mem_iff.mp
        (List.take_subset k _ hrr)
      rw [← hstrip]
      exact hgood rr hrr2
  · decide

/-- Witness for C9 at a concrete query, corpus and positive threshold. -/
theorem find_similar_total_own_indicator_witness :
    (wtokens "alpha" ≠ [] ∧ (0:ℚ) < 1/2) ∧
    find_similar_transactions id [⟨"t9", 2, "alpha delta"⟩] "alpha" (1/2) 5 ≠ none := by
  refine ⟨⟨by decide, by decide⟩, ?_⟩
  obtain ⟨out, hout, _⟩ := find_similar_total_own_indicator.1 id "alpha"
    [⟨"t9", 2, "alpha delta"⟩] (1/2) 5 (by decide) (by decide)
  rw [hout]
  exact fun h => Option.noConfusion h

/-- C7: every result of `find_similar_transactions` carries an indicator
vector of exactly 10 entries, each 0 or 1, for every enumeration order,
query, corpus, threshold and `top_k`. -/
theorem indicator_vector_ten (σ : List String → List String)
    (ts : List Transaction) (q : String) (th : ℚ) (k : ℕ)
    (out : List SimResult × ℕ)
    (h : find_similar_transactions σ ts q th k = some out) :
    ∀ r ∈ out.1, r.embedding.length = 10 ∧ ∀ x ∈ r.embedding, x = 0 ∨ x = 1 := by
  intro r hr
  unfold find_similar_transactions at h
  by_cases hq : q = ""
  · rw [if_pos hq] at h
    rw [← Option.some.inj h] at hr
    cases hr
  · rw [if_neg hq] at h
    by_cases hlen : (wtokens q).length = 0
    · rw [if_pos hlen] at h
      rw [← Option.some.inj h] at hr
      cases hr
    · rw [if_neg hlen] at h
      cases hsl : simLoop (wtokens q).toFinset (σ (wtokens q).dedup) th ts none [] with
      | none =>
        rw [hsl] at h
        exact absurd h (by simp)
      | some res =>
        rw [hsl] at h
        rw [← Option.some.inj h] at hr
        rcases List.mem_map.mp hr with ⟨rr, hrr, hstrip⟩
        have hrr2 : rr ∈ res := (isortDesc_perm RawResult.sim res).mem_iff.mp
          (List.take_subset k _ hrr)
        rcases simLoop_mem _ _ _ ts none [] res hsl rr hrr2 with hacc | ⟨c, hc⟩
        · cases hacc
        · constructor
          · rw [← hstrip]
            show rr.embedding.length = 10
            rw [hc, indicatorOf_length]
          · intro x hx
            rw [← hstrip] at hx
            apply indicatorOf_mem _ c
            rw [← hc]
            exact hx

/-- Witness for C7 at a concrete search. -/
theorem indicator_vector_ten_witness :
    (find_similar_transactions id [⟨"1", 5, "pay rent"⟩] "pay" (1/5) 5 =
      some ([⟨"1", "pay rent", 5, [1,0,0,0,0,0,0,0,0,0]⟩], 1)) ∧
    (⟨"1", "pay rent", 5, [1,0,0,0,0,0,0,0,0,0]⟩ : SimResult).embedding.length = 10 :=
  ⟨by decide,
   (indicator_vector_ten id [⟨"1", 5, "pay rent"⟩] "pay" (1/5) 5
      ([⟨"1", "pay rent", 5, [1,0,0,0,0,0,0,0,0,0]⟩], 1) (by decide)
      ⟨"1", "pay rent", 5, [1,0,0,0,0,0,0,0,0,0]⟩ (by simp)).1⟩

lemma length_filter_mono {α : Type} (p q : α → Bool)
    (h : ∀ a, p a = true → q a = true) :
    ∀ l : List α, (l.filter p).length ≤ (l.filter q).length := by
  intro l
  induction l with
  | nil => simp
  | cons a l ih =>
    by_cases hp : p a = true
    · rw [List.filter_cons, if_pos hp, List.filter_cons, if_pos (h a hp)]
      simpa using ih
    · rw [List.filter_cons, if_neg hp, List.filter_cons]
      by_cases hq : q a = true
      · rw [if_pos hq]
        exact le_trans ih (by simp)
      · rw [if_neg hq]
        exact ih

/-- C6: raising the threshold never increases the number of results, for
any enumeration order, query, corpus and `top_k`, whenever both runs
complete. -/
theorem similar_threshold_monotone (σ : List String → List String)
    (q : String) (ts : List Transaction) (k : ℕ) (t1 t2 : ℚ)
    (out1 out2 : List SimResult × ℕ) (h12 : t1 ≤ t2)
    (h1 : find_similar_transactions σ ts q t1 k = some out1)
    (h2 : find_similar_transactions σ ts q t2 k = some out2) :
    out2.1.length ≤ out1.1.length := by
  unfold find_similar_transactions at h1 h2
  by_cases hq : q = ""
  · rw [if_pos hq] at h1 h2
    rw [← Option.some.inj h1, ← Option.some.inj h2]
  · rw [if_neg hq] at h1 h2
    by_cases hlen : (wtokens q).length = 0
    · rw [if_pos hlen] at h1 h2
      rw [← Option.some.inj h1, ← Option.some.inj h2]
    · rw [if_neg hlen] at h1 h2
      cases hs1 : simLoop (wtokens q).toFinset (σ (wtokens q).dedup) t1 ts none [] with
      | none =>
        rw [hs1] at h1
        exact absurd h1 (by simp)
      | some res1 =>
        cases hs2 : simLoop (wtokens q).toFinset (σ (wtokens q).dedup) t2 ts none [] with
        | none =>
          rw [hs2] at h2
          exact absurd h2 (by simp)
        | some res2 =>
          rw [hs1] at h1
          rw [hs2] at h2
          rw [← Option.some.inj h1, ← Option.some.inj h2]
          simp only [List.length_map, List.length_take]
          have e1 := simLoop_length _ _ _ ts none [] res1 hs1
          have e2 := simLoop_length _ _ _ ts none [] res2 hs2
          have hperm1 := (isortDesc_perm RawResult.sim res1).length_eq
          have hperm2 := (isortDesc_perm RawResult.sim res2).length_eq
          have hmono := length_filter_mono
            (fun t => decide (t2 ≤ simOf (wtokens q).toFinset t.description))
            (fun t => decide (t1 ≤ simOf (wtokens q).toFinset t.description))
            (by
              intro a ha
              rw [decide_eq_true_eq] at ha
              rw [decide_eq_true_eq]
              exact le_trans h12 ha) ts
          rw [hperm1, hperm2, e1, e2]
          simp only [List.length_nil, Nat.zero_add]
          omega

/-- Witness for C6: at thresholds 1/5 and 3/5 the concrete search returns
one result and zero results respectively. -/
theorem similar_threshold_monotone_witness :
    ((1/5 : ℚ) ≤ 3/5 ∧
     find_similar_transactions id [⟨"1", 5, "pay rent"⟩, ⟨"2", 3, "buy food"⟩]
        "pay" (1/5) 5 =
       some ([⟨"1", "pay rent", 5, [1,0,0,0,0,0,0,0,0,0]⟩], 1) ∧
     find_similar_transactions id [⟨"1", 5, "pay rent"⟩, ⟨"2", 3, "buy food"⟩]
        "pay" (3/5) 5 = some ([], 1)) ∧
    (([] : List SimResult), 1).1.length ≤
      (([⟨"1", "pay rent", 5, [1,0,0,0,0,0,0,0,0,0]⟩] : List SimResult), 1).1.length :=
  ⟨⟨by decide, by decide, by decide⟩,
   similar_threshold_monotone id "pay" [⟨"1", 5, "pay rent"⟩, ⟨"2", 3, "buy food"⟩]
     5 (1/5) (3/5) ([⟨"1", "pay rent", 5, [1,0,0,0,0,0,0,0,0,0]⟩], 1) ([], 1)
     (by decide) (by decide) (by decide)⟩

/-- C8: a query whose tokenization is empty (including the empty string)
yields empty results and token count 0, without failing. -/
theorem empty_query_empty_results (σ : List String → List String)
    (ts : List Transaction) (th : ℚ) (k : ℕ) (q : String)
    (h : wtokens q = []) :
    find_similar_transactions σ ts q th k = some ([], 0) := by
  unfold find_similar_transactions
  by_cases hq : q = ""
  · rw [if_pos hq]
  · rw [if_neg hq, if_pos (by rw [h]; rfl)]

/-- Witness for C8 on an all-punctuation query. -/
theorem empty_query_empty_results_witness :
    wtokens "!?" = [] ∧
    find_similar_transactions id [⟨"1", 5, "pay rent"⟩] "!?" (1/5) 5 = some ([], 0) :=
  ⟨by decide,
   empty_query_empty_results id [⟨"1", 5, "pay rent"⟩] (1/5) 5 "!?" (by decide)⟩

/-- C3 (refuting the determinism claim for the code): two admissible
enumeration orders of the unordered query-word set — the first-occurrence
order and its reversal, which is also a permutation of it — give
different indicator vectors on the same query and corpus, so the result
depends on the set iteration order rather than on a fixed first-occurrence
order. -/
theorem indicator_order_set_dependent :
    ((wtokens "alpha beta").dedup.reverse).Perm (wtokens "alpha beta").dedup ∧
    find_similar_transactions (fun l => l.reverse) [⟨"t1", 1, "alpha gamma"⟩]
        "alpha beta" (1/5) 5 ≠
      find_similar_transactions id [⟨"t1", 1, "alpha gamma"⟩] "alpha beta" (1/5) 5 :=
  ⟨by decide, by decide⟩

/-!
## Structure of the capitalized-run scans (for the fallback claim)
-/

/-- The head of the list, if any, is not a lowercase letter. -/
def headNotLo (l : List Char) : Prop :=
  ∀ d, l.head? = some d → isLoAlpha d = false

lemma dropWhile_head_not (p : Char → Bool) :
    ∀ (l : List Char) (d : Char), (l.dropWhile p).head? = some d → p d = false := by
  intro l
  induction l with
  | nil => intro d h; cases h
  | cons a l ih =>
    intro d h
    by_cases ha : p a = true
    · rw [List.dropWhile_cons, if_pos ha] at h
      exact ih d h
    · rw [List.dropWhile_cons, if_neg ha] at h
      cases h
      exact Bool.eq_false_iff.mpr ha

lemma mem_takeWhile_pred (p : Char → Bool) :
    ∀ (l : List Char) (c : Char), c ∈ l.takeWhile p → p c = true := by
  intro l
  induction l with
  | nil => intro c h; cases h
  | cons a l ih =>
    intro c h
    by_cases ha : p a = true
    · rw [List.takeWhile_cons, if_pos ha] at h
      rcases List.mem_cons.mp h with rfl | h2
      · exact ha
      · exact ih c h2
    · rw [List.takeWhile_cons, if_neg ha] at h
      cases h

lemma capWord?_cons (c : Char) (cs : List Char) :
    capWord? (c :: cs) =
      if isUpAlpha c then
        if cs.takeWhile isLoAlpha = [] then none
        else some (c :: cs.takeWhile isLoAlpha, cs.dropWhile isLoAlpha)
      else none := rfl

lemma capWord?_eq_none (c : Char) (cs : List Char) (h : isUpAlpha c = false) :
    capWord? (c :: cs) = none := by
  rw [capWord?_cons, h]
  rfl

lemma capWord?_spec {cs w rest : List Char}
    (h : capWord? cs = some (w, rest)) :
    ∃ u ls, w = u :: ls ∧ isUpAlpha u = true ∧ ls ≠ [] ∧
      (∀ c ∈ ls, isLoAlpha c = true) ∧ cs = w ++ rest ∧ headNotLo rest := by
  cases cs with
  | nil => cases h
  | cons c cs' =>
    rw [capWord?_cons] at h
    by_cases hup : isUpAlpha c = true
    · rw [if_pos hup] at h
      by_cases htw : cs'.takeWhile isLoAlpha = []
      · rw [if_pos htw] at h
        cases h
      · rw [if_neg htw] at h
        rw [Option.some.injEq, Prod.mk.injEq] at h
        obtain ⟨hw, hrest⟩ := h
        refine ⟨c, cs'.takeWhile isLoAlpha, hw.symm, hup, htw, ?_, ?_, ?_⟩
        · intro x hx
          exact mem_takeWhile_pred isLoAlpha cs' x hx
        · rw [← hw, ← hrest]
          simp [List.takeWhile_append_dropWhile]
        · intro d2 hd2
          exact dropWhile_head_not isLoAlpha cs' d2 (by rw [hrest]; exact hd2)
    · rw [if_neg hup] at h
      cases h

lemma capWord?_len {cs w rest : List Char}
    (h : capWord? cs = some (w, rest)) : rest.length < cs.length := by
  obtain ⟨u, ls, hw, _, hls, _, hcs, _⟩ := capWord?_spec h
  rw [hcs, List.length_append, hw, List.length_cons]
  have : 0 < ls.length := List.length_pos.mpr hls
  omega

lemma wsCap?_eq (cs : List Char) :
    wsCap? cs =
      if cs.takeWhile isSp = [] then none
      else
        match capWord? (cs.dropWhile isSp) with
        | none => none
        | some (cw, rest) => some (cs.takeWhile isSp, cw, rest) := rfl

lemma wsCap?_spec {cs : List Char} {ws cw rest2 : List Char}
    (h : wsCap? cs = some (ws, cw, rest2)) :
    cs = ws ++ cw ++ rest2 ∧ ws ≠ [] ∧ (∀ c ∈ ws, isSp c = true) ∧
      (∃ u ls, cw = u :: ls ∧ isUpAlpha u = true ∧ ls ≠ [] ∧
        (∀ c ∈ ls, isLoAlpha c = true)) ∧ headNotLo rest2 := by
  rw [wsCap?_eq] at h
  by_cases htw : cs.takeWhile isSp = []
  · rw [if_pos htw] at h
    cases h
  · rw [if_neg htw] at h
    cases hcw : capWord? (cs.dropWhile isSp) with
    | none =>
      rw [hcw] at h
      cases h
    | some pr =>
      obtain ⟨cw', rest'⟩ := pr
      rw [hcw] at h
      have h2 : some (cs.takeWhile isSp, cw', rest') = some (ws, cw, rest2) := h
      rw [Option.some.injEq, Prod.mk.injEq, Prod.mk.injEq] at h2
      obtain ⟨hws, hcw2, hrest⟩ := h2
      obtain ⟨u, ls, hshape, hu, hls, hall, hdec, hhead⟩ := capWord?_spec hcw
      refine ⟨?_, ?_, ?_, ⟨u, ls, by rw [← hcw2]; exact hshape, hu, hls, hall⟩, ?_⟩
      · rw [← hws, ← hcw2, ← hrest]
        conv_lhs => rw [← List.takeWhile_append_dropWhile (p := isSp) (l := cs)]
        rw [hdec]
        simp
      · rw [← hws]
        exact htw
      · intro x hx
        rw [← hws] at hx
        exact mem_takeWhile_pred isSp cs x hx
      · intro d hd
        exact hhead d (by rw [hrest]; exact hd)

lemma wsCap?_len {cs : List Char} {ws cw rest2 : List Char}
    (h : wsCap? cs = some (ws, cw, rest2)) : rest2.length < cs.length := by
  obtain ⟨hdec, hws, _, ⟨u, ls, hcw, _, _, _⟩, _⟩ := wsCap?_spec h
  rw [hdec, List.length_append, List.length_append, hcw, List.length_cons]
  have : 0 < ws.length := List.length_pos.mpr hws
  omega

lemma runTailF_succ (f : ℕ) (cs : List Char) :
    runTailF (f + 1) cs =
      match wsCap? cs with
      | none => ([], cs)
      | some (w, cw, rest) =>
        (w ++ cw ++ (runTailF f rest).1, (runTailF f rest).2) := rfl

lemma runTailF_congr : ∀ (f1 f2 : ℕ) (cs : List Char),
    cs.length ≤ f1 → cs.length ≤ f2 → runTailF f1 cs = runTailF f2 cs := by
  intro f1
  induction f1 with
  | zero =>
    intro f2 cs h1 _h2
    have hnil : cs = [] := List.length_eq_zero.mp (Nat.le_zero.mp h1)
    subst hnil
    cases f2 with
    | zero => rfl
    | succ g => rfl
  | succ f ih =>
    intro f2 cs h1 h2
    cases cs with
    | nil =>
      cases f2 with
      | zero => rfl
      | succ g => rfl
    | cons c cs' =>
      cases f2 with
      | zero => simp at h2
      | succ g =>
        rw [runTailF_succ, runTailF_succ]
        cases hw : wsCap? (c :: cs') with
        | none => rfl
        | some v =>
          obtain ⟨w, cw, rest⟩ := v
          have hr : rest.length < (c :: cs').length := wsCap?_len hw
          simp only [List.length_cons] at hr h1 h2
          have hrec := ih g rest (by omega) (by omega)
          simp only [hrec]

lemma runTail_eq (cs : List Char) :
    runTail cs =
      match wsCap? cs with
      | none => ([], cs)
      | some (w, cw, rest) =>
        (w ++ cw ++ (runTail rest).1, (runTail rest).2) := by
  cases cs with
  | nil => rfl
  | cons c cs' =>
    show runTailF (cs'.length + 1) (c :: cs') = _
    rw [runTailF_succ]
    cases hw : wsCap? (c :: cs') with
    | none => rfl
    | some v =>
      obtain ⟨w, cw, rest⟩ := v
      have hr : rest.length < (c :: cs').length := wsCap?_len hw
      simp only [List.length_cons] at hr
      have : runTailF cs'.length rest = runTailF rest.length rest :=
        runTailF_congr cs'.length rest.length rest (by omega) le_rfl
      simp only [this]
      rfl

lemma runTail_snd_le : ∀ (n : ℕ) (cs : List Char), cs.length ≤ n →
    (runTail cs).2.length ≤ cs.length := by
  intro n
  induction n with
  | zero =>
    intro cs h
    have hnil : cs = [] := List.length_eq_zero.mp (Nat.le_zero.mp h)
    subst hnil
    exact le_rfl
  | succ n ih =>
    intro cs h
    rw [runTail_eq]
    cases hw : wsCap? cs with
    | none => exact le_rfl
    | some v =>
      obtain ⟨w, cw, rest⟩ := v
      have hr : rest.length < cs.length := wsCap?_len hw
      have := ih rest (by omega)
      simp only []
      omega

lemma runTail_nil_fst {cs : List Char} (h : (runTail cs).1 = []) :
    (runTail cs).2 = cs := by
  rw [runTail_eq] at h ⊢
  cases hw : wsCap? cs with
  | none => rfl
  | some v =>
    obtain ⟨w, cw, rest⟩ := v
    rw [hw] at h
    obtain ⟨_, hws, _, _, _⟩ := wsCap?_spec hw
    simp only [] at h
    rw [List.append_assoc] at h
    exact absurd (List.append_eq_nil.mp h).1 hws

lemma scan1F_succ (f : ℕ) (c : Char) (cs' : List Char) :
    scan1F (f + 1) (c :: cs') =
      match capWord? (c :: cs') with
      | none => scan1F f cs'
      | some (w, rest) =>
        if (runTail rest).1 = [] then scan1F f cs'
        else (w ++ (runTail rest).1) :: scan1F f (runTail rest).2 := rfl

lemma scan1F_congr : ∀ (f1 f2 : ℕ) (cs : List Char),
    cs.length ≤ f1 → cs.length ≤ f2 → scan1F f1 cs = scan1F f2 cs := by
  intro f1
  induction f1 with
  | zero =>
    intro f2 cs h1 _h2
    have hnil : cs = [] := List.length_eq_zero.mp (Nat.le_zero.mp h1)
    subst hnil
    cases f2 with
    | zero => rfl
    | succ g => rfl
  | succ f ih =>
    intro f2 cs h1 h2
    cases cs with
    | nil =>
      cases f2 with
      | zero => rfl
      | succ g => rfl
    | cons c cs' =>
      cases f2 with
      | zero => simp at h2
      | succ g =>
        rw [scan1F_succ, scan1F_succ]
        simp only [List.length_cons] at h1 h2
        cases hcw : capWord? (c :: cs') with
        | none => exact ih g cs' (by omega) (by omega)
        | some pr =>
          obtain ⟨w, rest⟩ := pr
          have hr := capWord?_len hcw
          simp only [List.length_cons] at hr
          have hrt := runTail_snd_le rest.length rest le_rfl
          have e1 := ih g cs' (by omega) (by omega)
          have e2 := ih g (runTail rest).2 (by omega) (by omega)
          simp only [e1, e2]

lemma scan1_nil : scan1 [] = [] := rfl

lemma scan1_cons (c : Char) (cs' : List Char) :
    scan1 (c :: cs') =
      match capWord? (c :: cs') with
      | none => scan1 cs'
      | some (w, rest) =>
        if (runTail rest).1 = [] then scan1 cs'
        else (w ++ (runTail rest).1) :: scan1 (runTail rest).2 := by
  show scan1F (cs'.length + 1) (c :: cs') = _
  rw [scan1F_succ]
  cases hcw : capWord? (c :: cs') with
  | none => rfl
  | some pr =>
    obtain ⟨w, rest⟩ := pr
    have hr := capWord?_len hcw
    simp only [List.length_cons] at hr
    have hrt := runTail_snd_le rest.length rest le_rfl
    have e2 : scan1F cs'.length (runTail rest).2 = scan1 (runTail rest).2 :=
      scan1F_congr _ _ _ (by omega) le_rfl
    simp only [e2]
    rfl

lemma scan1_cons_none {c : Char} {cs' : List Char}
    (h : capWord? (c :: cs') = none) :
    scan1 (c :: cs') = scan1 cs' := by
  rw [scan1_cons, h]

lemma scan1_cons_some_nil {c : Char} {cs' w rest : List Char}
    (h : capWord? (c :: cs') = some (w, rest)) (h2 : (runTail rest).1 = []) :
    scan1 (c :: cs') = scan1 cs' := by
  rw [scan1_cons, h]
  simp [h2]

lemma scan1_cons_some_run {c : Char} {cs' w rest : List Char}
    (h : capWord? (c :: cs') = some (w, rest)) (h2 : (runTail rest).1 ≠ []) :
    scan1 (c :: cs') = (w ++ (runTail rest).1) :: scan1 (runTail rest).2 := by
  rw [scan1_cons, h]
  simp [h2]

lemma pairAt_none_cap {cs : List Char} (h : capWord? cs = none) :
    pairAt cs = none := by
  simp only [pairAt, h]

lemma pairAt_none_ws {cs w rest : List Char}
    (h : capWord? cs = some (w, rest)) (h2 : wsCap? rest = none) :
    pairAt cs = none := by
  simp only [pairAt, h, h2]

lemma pairAt_some {cs w rest ws cw rest2 : List Char}
    (h : capWord? cs = some (w, rest)) (h2 : wsCap? rest = some (ws, cw, rest2)) :
    pairAt cs = some (w ++ ws ++ cw, rest2) := by
  simp only [pairAt, h, h2]

lemma pairAt_cases {cs : List Char} {m r : List Char}
    (h : pairAt cs = some (m, r)) :
    ∃ w rest ws cw, capWord? cs = some (w, rest) ∧
      wsCap? rest = some (ws, cw, r) ∧ m = w ++ ws ++ cw := by
  unfold pairAt at h
  cases hcw : capWord? cs with
  | none => rw [hcw] at h; cases h
  | some pr =>
    obtain ⟨w, rest⟩ := pr
    rw [hcw] at h
    have h2 : (match wsCap? rest with
      | none => none
      | some (ws, cw, rest2) => some (w ++ ws ++ cw, rest2)) = some (m, r) := h
    cases hws : wsCap? rest with
    | none => rw [hws] at h2; cases h2
    | some v =>
      obtain ⟨ws, cw, rest2⟩ := v
      rw [hws] at h2
      have h3 : some (w ++ ws ++ cw, rest2) = some (m, r) := h2
      rw [Option.some.injEq, Prod.mk.injEq] at h3
      refine ⟨w, rest, ws, cw, hcw ▸ rfl, ?_, h3.1.symm⟩
      rw [hws, h3.2]

lemma pairAt_len {cs m r : List Char} (h : pairAt cs = some (m, r)) :
    r.length < cs.length := by
  obtain ⟨w, rest, ws, cw, hcw, hws, _⟩ := pairAt_cases h
  exact lt_trans (wsCap?_len hws) (capWord?_len hcw)

lemma scan2F_succ (f : ℕ) (c : Char) (cs' : List Char) :
    scan2F (f + 1) (c :: cs') =
      match pairAt (c :: cs') with
      | none => scan2F f cs'
      | some (m, r) => m :: scan2F f r := rfl

lemma scan2F_congr : ∀ (f1 f2 : ℕ) (cs : List Char),
    cs.length ≤ f1 → cs.length ≤ f2 → scan2F f1 cs = scan2F f2 cs := by
  intro f1
  induction f1 with
  | zero =>
    intro f2 cs h1 _h2
    have hnil : cs = [] := List.length_eq_zero.mp (Nat.le_zero.mp h1)
    subst hnil
    cases f2 with
    | zero => rfl
    | succ g => rfl
  | succ f ih =>
    intro f2 cs h1 h2
    cases cs with
    | nil =>
      cases f2 with
      | zero => rfl
      | succ g => rfl
    | cons c cs' =>
      cases f2 with
      | zero => simp at h2
      | succ g =>
        rw [scan2F_succ, scan2F_succ]
        simp only [List.length_cons] at h1 h2
        cases hp : pairAt (c :: cs') with
        | none => exact ih g cs' (by omega) (by omega)
        | some pr =>
          obtain ⟨m, r⟩ := pr
          have hr := pairAt_len hp
          simp only [List.length_cons] at hr
          have e := ih g r (by omega) (by omega)
          simp only [e]

lemma scan2_nil : scan2 [] = [] := rfl

lemma scan2_cons (c : Char) (cs' : List Char) :
    scan2 (c :: cs') =
      match pairAt (c :: cs') with
      | none => scan2 cs'
      | some (m, r) => m :: scan2 r := by
  show scan2F (cs'.length + 1) (c :: cs') = _
  rw [scan2F_succ]
  cases hp : pairAt (c :: cs') with
  | none => rfl
  | some pr =>
    obtain ⟨m, r⟩ := pr
    have hr := pairAt_len hp
    simp only [List.length_cons] at hr
    have e : scan2F cs'.length r = scan2 r :=
      scan2F_congr _ _ _ (by omega) le_rfl
    simp only [e]

lemma scan2_cons_none {c : Char} {cs' : List Char}
    (h : pairAt (c :: cs') = none) :
    scan2 (c :: cs') = scan2 cs' := by
  rw [scan2_cons, h]

lemma scan2_cons_some {c : Char} {cs' m r : List Char}
    (h : pairAt (c :: cs') = some (m, r)) :
    scan2 (c :: cs') = m :: scan2 r := by
  rw [scan2_cons, h]

lemma sp_not_up (c : Char) (h : isSp c = true) : isUpAlpha c = false := by
  simp only [isSp, Bool.or_eq_true, beq_iff_eq] at h
  rcases h with ((((h|h)|h)|h)|h)|h <;> subst h <;> decide

lemma sp_not_lo (c : Char) (h : isSp c = true) : isLoAlpha c = false := by
  simp only [isSp, Bool.or_eq_true, beq_iff_eq] at h
  rcases h with ((((h|h)|h)|h)|h)|h <;> subst h <;> decide

lemma lo_not_up (c : Char) (h : isLoAlpha c = true) : isUpAlpha c = false := by
  by_contra hne
  rw [Bool.not_eq_false] at hne
  simp only [isLoAlpha, Bool.and_eq_true, decide_eq_true_eq] at h
  simp only [isUpAlpha, Bool.and_eq_true, decide_eq_true_eq] at hne
  have : ('a' : Char) ≤ 'Z' := le_trans h.1 hne.2
  exact absurd this (by decide)

lemma up_not_sp (c : Char) (h : isUpAlpha c = true) : isSp c = false := by
  by_contra hne
  rw [Bool.not_eq_false] at hne
  rw [sp_not_up c hne] at h
  exact Bool.noConfusion h

lemma lo_not_sp (c : Char) (h : isLoAlpha c = true) : isSp c = false := by
  by_contra hne
  rw [Bool.not_eq_false] at hne
  rw [sp_not_lo c hne] at h
  exact Bool.noConfusion h

lemma takeWhile_append_all (p : Char → Bool) :
    ∀ (a : List Char), (∀ c ∈ a, p c = true) →
      ∀ rest : List Char, (a ++ rest).takeWhile p = a ++ rest.takeWhile p ∧
        (a ++ rest).dropWhile p = rest.dropWhile p := by
  intro a
  induction a with
  | nil => intro _ rest; simp
  | cons c a' ih =>
    intro h rest
    have hc : p c = true := h c (List.mem_cons_self c a')
    have := ih (fun d hd => h d (List.mem_cons_of_mem c hd)) rest
    constructor
    · rw [List.cons_append, List.takeWhile_cons, if_pos hc, this.1, List.cons_append]
    · rw [List.cons_append, List.dropWhile_cons, if_pos hc, this.2]

lemma takeWhile_nil_head {p : Char → Bool} {l : List Char}
    (h : ∀ d, l.head? = some d → p d = false) :
    l.takeWhile p = [] ∧ l.dropWhile p = l := by
  cases l with
  | nil => simp
  | cons d ds =>
    have hd : p d = false := h d rfl
    constructor
    · rw [List.takeWhile_cons, if_neg (by rw [hd]; exact Bool.noConfusion)]
    · rw [List.dropWhile_cons, if_neg (by rw [hd]; exact Bool.noConfusion)]

lemma headNotLo_lower {l : List Char} (h : headNotLo l) :
    l.takeWhile isLoAlpha = [] ∧ l.dropWhile isLoAlpha = l :=
  takeWhile_nil_head h

lemma capWord?_reconstruct (u : Char) (ls rest : List Char)
    (hu : isUpAlpha u = true) (hls : ls ≠ []) (hall : ∀ c ∈ ls, isLoAlpha c = true)
    (hrest : headNotLo rest) :
    capWord? (u :: (ls ++ rest)) = some (u :: ls, rest) := by
  rw [capWord?_cons]
  obtain ⟨ht, hd⟩ := takeWhile_append_all isLoAlpha ls hall rest
  obtain ⟨ht2, hd2⟩ := headNotLo_lower hrest
  rw [hu, ht, ht2, hd, hd2, List.append_nil]
  simp [hls]

/-- Skipping characters that cannot start a capitalized word leaves the
scan unchanged. -/
lemma scan1_skip : ∀ (pre xs : List Char), (∀ c ∈ pre, isUpAlpha c = false) →
    scan1 (pre ++ xs) = scan1 xs := by
  intro pre
  induction pre with
  | nil => intro xs _; rfl
  | cons c pre' ih =>
    intro xs h
    rw [List.cons_append,
        scan1_cons_none (capWord?_eq_none c _ (h c (List.mem_cons_self c pre')))]
    exact ih xs (fun d hd => h d (List.mem_cons_of_mem c hd))

/-- The run-suffix lemma: inside a whitespace-prefixed capitalized run,
every scan-1 match is bounded by the run and its tail, or lies past the
run's end. -/
lemma scan1_run_suffix :
    ∀ (ws : List Char), (∀ c ∈ ws, isSp c = true) →
    ∀ (u : Char) (ls rest2 : List Char),
      isUpAlpha u = true → ls ≠ [] → (∀ c ∈ ls, isLoAlpha c = true) →
      headNotLo rest2 →
      ∀ m ∈ scan1 (ws ++ (u :: ls) ++ rest2),
        m.length ≤ (ws ++ (u :: ls) ++ (runTail rest2).1).length ∨
        m ∈ scan1 (runTail rest2).2 := by
  intro ws
  induction ws with
  | cons c ws' ih =>
    intro hsp u ls rest2 hu hls hall hrest m hm
    rw [List.cons_append, List.cons_append] at hm
    rw [scan1_cons_none
      (capWord?_eq_none c _ (sp_not_up c (hsp c (List.mem_cons_self c ws'))))] at hm
    rcases ih (fun d hd => hsp d (List.mem_cons_of_mem c hd)) u ls rest2
      hu hls hall hrest m hm with hb | hmem
    · left
      refine le_trans hb ?_
      simp [List.length_append]
    · right
      exact hmem
  | nil =>
    intro _ u ls rest2 hu hls hall hrest m hm
    rw [List.nil_append, List.cons_append] at hm
    rw [show (u :: (ls ++ rest2)) = u :: (ls ++ rest2) from rfl] at hm
    by_cases htl : (runTail rest2).1 = []
    · rw [scan1_cons_some_nil
        (by rw [← List.cons_append]
            exact capWord?_reconstruct u ls rest2 hu hls hall hrest) htl] at hm
      right
      rw [runTail_nil_fst htl]
      rw [scan1_skip ls rest2 (fun d hd => lo_not_up d (hall d hd))] at hm
      exact hm
    · rw [scan1_cons_some_run
        (by rw [← List.cons_append]
            exact capWord?_reconstruct u ls rest2 hu hls hall hrest) htl] at hm
      rcases List.mem_cons.mp hm with rfl | hmem
      · left
        simp [List.length_append]
      · right
        exact hmem

/-- Every scan-1 match on a text is bounded by that text's leading run
tail or lies in the text past the run. -/
lemma scan1_runTail_bound (cs : List Char) (m : List Char) (hm : m ∈ scan1 cs) :
    m.length ≤ (runTail cs).1.length ∨ m ∈ scan1 (runTail cs).2 := by
  cases hw : wsCap? cs with
  | none =>
    right
    have : runTail cs = ([], cs) := by rw [runTail_eq, hw]
    rw [this]
    exact hm
  | some v =>
    obtain ⟨ws, cw, rest2⟩ := v
    obtain ⟨hdec, hwsne, hwsall, ⟨u, ls, hcw, hu, hls, hall⟩, hhead⟩ := wsCap?_spec hw
    have hrt : runTail cs = (ws ++ cw ++ (runTail rest2).1, (runTail rest2).2) := by
      rw [runTail_eq, hw]
    rw [hdec, hcw] at hm
    rcases scan1_run_suffix ws hwsall u ls rest2 hu hls hall hhead m hm with hb | hmem
    · left
      rw [hrt, hcw]
      exact hb
    · right
      rw [hrt]
      exact hmem

/-- Every pair match of scan 2 is length-bounded by some run match of
scan 1 on the same text. -/
lemma scan2_le_scan1 : ∀ (n : ℕ) (cs : List Char), cs.length ≤ n →
    ∀ m2 ∈ scan2 cs, ∃ m1 ∈ scan1 cs, m2.length ≤ m1.length := by
  intro n
  induction n with
  | zero =>
    intro cs h m2 hm2
    have hnil : cs = [] := List.length_eq_zero.mp (Nat.le_zero.mp h)
    subst hnil
    cases hm2
  | succ n ih =>
    intro cs hlen m2 hm2
    cases cs with
    | nil => cases hm2
    | cons c cs' =>
      simp only [List.length_cons] at hlen
      cases hcw : capWord? (c :: cs') with
      | none =>
        rw [scan2_cons_none (pairAt_none_cap hcw)] at hm2
        obtain ⟨m1, h1, h2⟩ := ih cs' (by omega) m2 hm2
        exact ⟨m1, by rw [scan1_cons_none hcw]; exact h1, h2⟩
      | some pr =>
        obtain ⟨w, rest⟩ := pr
        cases hws : wsCap? rest with
        | none =>
          have hrt : runTail rest = ([], rest) := by rw [runTail_eq, hws]
          rw [scan2_cons_none (pairAt_none_ws hcw hws)] at hm2
          obtain ⟨m1, h1, h2⟩ := ih cs' (by omega) m2 hm2
          refine ⟨m1, ?_, h2⟩
          rw [scan1_cons_some_nil hcw (by rw [hrt])]
          exact h1
        | some v =>
          obtain ⟨ws, cw, rest2⟩ := v
          have hp := pairAt_some hcw hws
          rw [scan2_cons_some hp] at hm2
          obtain ⟨hdec2, hwsne, hwsall, ⟨u, ls, hcwsh, hu, hls, hall⟩, hhead⟩ :=
            wsCap?_spec hws
          have hrt : runTail rest =
              (ws ++ cw ++ (runTail rest2).1, (runTail rest2).2) := by
            rw [runTail_eq, hws]
          have htlne : (runTail rest).1 ≠ [] := by
            rw [hrt]
            simp [hwsne]
          have hs1 := scan1_cons_some_run hcw htlne
          rcases List.mem_cons.mp hm2 with rfl | hm2'
          · refine ⟨w ++ (runTail rest).1,
              by rw [hs1]; exact List.mem_cons_self _ _, ?_⟩
            rw [hrt]
            simp only [List.length_append]
            omega
          · have hr2 : rest2.length ≤ n := by
              have ha := capWord?_len hcw
              have hb := wsCap?_len hws
              simp only [List.length_cons] at ha
              omega
            obtain ⟨m1', hm1', hle⟩ := ih rest2 hr2 m2 hm2'
            rcases scan1_runTail_bound rest2 m1' hm1' with hb | hmem
            · refine ⟨w ++ (runTail rest).1,
                by rw [hs1]; exact List.mem_cons_self _ _, ?_⟩
              rw [hrt]
              simp only [List.length_append]
              omega
            · refine ⟨m1', ?_, hle⟩
              rw [hs1, hrt]
              exact List.mem_cons_of_mem _ hmem

lemma dropWhile_whole_of_head_false {p : Char → Bool} {d : Char} {l : List Char}
    (hd : p d = false) : (d :: l).dropWhile p = d :: l := by
  rw [List.dropWhile_cons, if_neg (by rw [hd]; exact Bool.noConfusion)]

lemma runsBy_all_append (p : Char → Bool) (a : List Char) (ha : a ≠ [])
    (hall : ∀ c ∈ a, p c = true) (rest : List Char) :
    runsBy p (a ++ rest) =
      (a ++ rest.takeWhile p) :: runsBy p (rest.dropWhile p) := by
  cases a with
  | nil => exact absurd rfl ha
  | cons c a' =>
    rw [List.cons_append, runsBy_cons, if_pos (hall c (List.mem_cons_self c a'))]
    obtain ⟨ht, hd⟩ := takeWhile_append_all p a'
      (fun d hd => hall d (List.mem_cons_of_mem c hd)) rest
    rw [ht, hd]
    simp [List.cons_append]

lemma runsBy_skip (p : Char → Bool) : ∀ (a : List Char),
    (∀ c ∈ a, p c = false) → ∀ rest, runsBy p (a ++ rest) = runsBy p rest := by
  intro a
  induction a with
  | nil => intro _ rest; rfl
  | cons c a' ih =>
    intro h rest
    rw [List.cons_append, runsBy_cons,
        if_neg (by rw [h c (List.mem_cons_self c a')]; exact Bool.noConfusion)]
    exact ih (fun d hd => h d (List.mem_cons_of_mem c hd)) rest

/-- A non-space word, a whitespace gap and a following non-space character
give at least two whitespace-split runs. -/
lemma runsBy_two_of_shape (w ws : List Char) (d : Char) (tl : List Char)
    (hw : w ≠ []) (hwall : ∀ c ∈ w, isSp c = false)
    (hws : ws ≠ []) (hwsall : ∀ c ∈ ws, isSp c = true)
    (hd : isSp d = false) :
    2 ≤ (runsBy (fun c => !(isSp c)) (w ++ ws ++ d :: tl)).length := by
  rw [List.append_assoc]
  rw [runsBy_all_append _ w hw (fun c hc => by simp [hwall c hc]) (ws ++ d :: tl)]
  have hdw : (ws ++ d :: tl).dropWhile (fun c => !(isSp c)) = ws ++ d :: tl := by
    cases ws with
    | nil => exact absurd rfl hws
    | cons s ws' =>
      rw [List.cons_append]
      exact dropWhile_whole_of_head_false
        (by simp [hwsall s (List.mem_cons_self s ws')])
  rw [hdw, runsBy_skip _ ws (fun c hc => by simp [hwsall c hc]) (d :: tl),
      runsBy_cons, if_pos (by simp [hd])]
  simp

/-- Every scan-1 match splits into at least two whitespace-separated
words. -/
lemma scan1_words : ∀ (n : ℕ) (cs : List Char), cs.length ≤ n →
    ∀ m ∈ scan1 cs, 2 ≤ (runsBy (fun c => !(isSp c)) m).length := by
  intro n
  induction n with
  | zero =>
    intro cs h m hm
    have hnil : cs = [] := List.length_eq_zero.mp (Nat.le_zero.mp h)
    subst hnil
    cases hm
  | succ n ih =>
    intro cs hlen m hm
    cases cs with
    | nil => cases hm
    | cons c cs' =>
      simp only [List.length_cons] at hlen
      cases hcw : capWord? (c :: cs') with
      | none =>
        rw [scan1_cons_none hcw] at hm
        exact ih cs' (by omega) m hm
      | some pr =>
        obtain ⟨w, rest⟩ := pr
        cases hws : wsCap? rest with
        | none =>
          have hrt : runTail rest = ([], rest) := by rw [runTail_eq, hws]
          rw [scan1_cons_some_nil hcw (by rw [hrt])] at hm
          exact ih cs' (by omega) m hm
        | some v =>
          obtain ⟨ws, cw, rest2⟩ := v
          obtain ⟨hdec2, hwsne, hwsall, ⟨u, ls, hcwsh, hu, hls, hall⟩, hhead⟩ :=
            wsCap?_spec hws
          have hrt : runTail rest =
              (ws ++ cw ++ (runTail rest2).1, (runTail rest2).2) := by
            rw [runTail_eq, hws]
          have htlne : (runTail rest).1 ≠ [] := by
            rw [hrt]
            simp [hwsne]
          rw [scan1_cons_some_run hcw htlne] at hm
          rcases List.mem_cons.mp hm with rfl | hm'
          · obtain ⟨u0, ls0, hwsh, hu0, _, hall0, _, _⟩ := capWord?_spec hcw
            have hwall : ∀ x ∈ w, isSp x = false := by
              intro x hx
              rw [hwsh] at hx
              rcases List.mem_cons.mp hx with rfl | hx2
              · exact up_not_sp x hu0
              · exact lo_not_sp x (hall0 x hx2)
            have hwne : w ≠ [] := by rw [hwsh]; simp
            have hshape : w ++ (runTail rest).1 =
                w ++ ws ++ u :: (ls ++ (runTail rest2).1) := by
              rw [hrt]
              simp only []
              rw [hcwsh]
              simp [List.append_assoc, List.cons_append]
            rw [hshape]
            exact runsBy_two_of_shape w ws u (ls ++ (runTail rest2).1)
              hwne hwall hwsne hwsall (up_not_sp u hu)
          · rw [hrt] at hm'
            have ha := capWord?_len hcw
            have hb := wsCap?_len hws
            simp only [List.length_cons] at ha
            have hc := runTail_snd_le rest2.length rest2 le_rfl
            exact ih (runTail rest2).2 (by omega) m hm'

lemma passCond_false_parts {m : List Char} (h : passCond m = false) :
    ¬ (2 ≤ (runsBy (fun c => !(isSp c)) m).length) ∨ ¬ (5 < m.length) := by
  by_cases h2 : 2 ≤ (runsBy (fun c => !(isSp c)) m).length
  · by_cases h5 : 5 < m.length
    · exfalso
      simp [passCond, h2, h5] at h
    · exact Or.inr h5
  · exact Or.inl h2

/-- C4 (amended): on a non-empty text where none of the lead-in patterns
matches, the extractor returns the first maximal run of two or more
consecutive capitalized words, in the whitespace-collapsed text, whose
total length exceeds 5 characters — and the empty string when no such run
exists (the two-word pattern that the source tries next can never succeed
where the run pattern failed, since each of its matches is a prefix of a
run match). -/
theorem extract_fallback_first_passing_run (text : String) (hne : text ≠ "")
    (hlead : leadinExtract (preText text) = none) :
    extract_name_from_text text =
      (((scan1 (preText text)).find? passCond).map String.mk).getD "" := by
  unfold extract_name_from_text
  rw [if_neg hne, hlead]
  cases hf : (scan1 (preText text)).find? passCond with
  | some m =>
    rfl
  | none =>
    have hall : ∀ m1 ∈ scan1 (preText text), passCond m1 = false := by
      intro m1 hm1
      exact Bool.eq_false_iff.mpr (List.find?_eq_none.mp hf m1 hm1)
    have hf2 : (scan2 (preText text)).find? passCond = none := by
      rw [List.find?_eq_none]
      intro x hx hpx
      obtain ⟨m1, hm1, hle⟩ := scan2_le_scan1 (preText text).length _ le_rfl x hx
      have hwords := scan1_words (preText text).length _ le_rfl m1 hm1
      rcases passCond_false_parts (hall m1 hm1) with hcontra | hlen5
      · exact hcontra hwords
      · unfold passCond at hpx
        rw [Bool.and_eq_true, decide_eq_true_eq, decide_eq_true_eq] at hpx
        exact hlen5 (lt_of_lt_of_le hpx.2 hle)
    rw [hf2]
    rfl

/-- Counterexample to C4 as stated: on "Al Bo" no lead-in pattern
matches, the only capitalized run is the two-word, 5-character "Al Bo"
(which exceeds 2 characters), yet the extractor returns the empty string
because the source requires length strictly greater than 5. -/
theorem extract_fallback_cex :
    leadinExtract (preText "Al Bo") = none ∧
    scan1 (preText "Al Bo") = ["Al Bo".data] ∧
    extract_name_from_text "Al Bo" = "" := by
  refine ⟨by decide, by decide, by decide⟩

/-- Witness for C4's amended theorem on the concrete text
"Randy Newman". -/
theorem extract_fallback_first_passing_run_witness :
    (("Randy Newman" : String) ≠ "" ∧
     leadinExtract (preText "Randy Newman") = none) ∧
    extract_name_from_text "Randy Newman" =
      (((scan1 (preText "Randy Newman")).find? passCond).map String.mk).getD "" :=
  ⟨⟨by decide, by decide⟩,
   extract_fallback_first_passing_run "Randy Newman" (by decide) (by decide)⟩
